import Mathlib

/-!
Shallow embedding of the per-frame raster transform of `src/ascii.rs`
(video-ascii-cli): block-luma sampling, contrast enhancement, glyph
selection, glyph rasterization, background detection and alpha matting.

Modelling conventions:
* A `GrayImage` is its dimensions plus a total pixel function
  `Nat → Nat → Nat`; pixel values are bytes (`≤ 255`) wherever a theorem
  needs that, stated as a hypothesis.  `put_pixel` is point-wise function
  update, `from_pixel` a constant function, so the Rust mutation loops
  become `List.foldl` over `List.range`.
* Machine integers are `Nat`/`Int`.  The `as u8` cast of
  `unsigned_abs()` in `convert_to_transparent` is kept as `% 256`.
* The `f32` arithmetic of `enhance_contrast` and `draw_glyph_gray` is
  modelled over `ℚ`; `.round()` (half away from zero) agrees with
  Mathlib's `round` on the non-negative values that occur, and the
  `as u8` saturating cast becomes `Int.toNat` plus `min 255`.
* The `font8x8::BASIC_FONTS` table is an external crate, so the font is
  a parameter `Font := Char → Option (Nat → Nat)` mapping a character to
  its eight row-bitmasks; `.get(ch).unwrap_or(fallback)` with the
  fallback glyph for the question mark is `glyphFor`.
-/

namespace VideoAscii

/-- A grayscale image: `image::GrayImage`.  The pixel map is total; only
the values at `x < width`, `y < height` are meaningful. -/
structure GrayImage where
  width : Nat
  height : Nat
  pix : Nat → Nat → Nat

/-- `GrayImage::from_pixel(w, h, Luma([v]))`: constant image. -/
def GrayImage.fromPixel (w h v : Nat) : GrayImage :=
  { width := w, height := h, pix := fun _ _ => v }

/-- `canvas.put_pixel(x, y, Luma([v]))`: point update of the pixel map. -/
def GrayImage.putPixel (img : GrayImage) (x y v : Nat) : GrayImage :=
  { img with pix := fun a b => if a = x ∧ b = y then v else img.pix a b }

/-- One RGBA pixel (`image::Rgba`), four byte channels. -/
structure RgbaPixel where
  r : Nat
  g : Nat
  b : Nat
  a : Nat
deriving DecidableEq

/-- An RGBA image: `image::RgbaImage`. -/
structure RgbaImage where
  width : Nat
  height : Nat
  pix : Nat → Nat → RgbaPixel

/-- The `AsciiOptions` struct of `ascii.rs`. -/
structure AsciiOptions where
  columns : Nat
  charset : List Char
  shades : Nat

/-- `AsciiOptions::new`: collect the charset characters, substitute the
default gradient when empty, clamp `columns` to at least 1 and `shades`
into `[1, 256]` (`u32::clamp(lo, hi) = min (max x lo) hi`). -/
def AsciiOptions.new (columns : Nat) (charset : String) (shades : Nat) : AsciiOptions :=
  let chars : List Char := charset.toList
  let chars := if chars.isEmpty then "@#*+=-:. ".toList else chars
  { columns := max columns 1
    charset := chars
    shades := min (max shades 1) 256 }

/-- `enhance_contrast`: the fixed linear stretch
`clamp01((luma/255 - 0.5) * 1.5 + 0.5) * 255`, truncated.  The `f32`
arithmetic is modelled exactly over `ℚ` (the exact pre-truncation value
always lies at fractional distance ≥ 1/4 from every integer, so `f32`
rounding cannot change the truncated byte); the final `as u8` cast
saturates, and the value is already in `[0, 255]`, so it is `⌊·⌋.toNat`. -/
def enhance_contrast (luma : Nat) : Nat :=
  let f : ℚ := (luma : ℚ) / 255
  let enhanced : ℚ := max 0 (min ((f - 1/2) * (3/2) + 1/2) 1)
  (⌊enhanced * 255⌋).toNat

/-- `average_luma`: sum the pixels of the block `[x0,x1) × [y0,y1)`,
each loop bound clipped at the image edge (`y1.min(height)`,
`x1.min(width)`), count one per visited pixel, and return the truncating
mean, or 0 when no pixel was visited. -/
def average_luma (image : GrayImage) (x0 x1 y0 y1 : Nat) : Nat :=
  let ys := Finset.Ico y0 (min y1 image.height)
  let xs := Finset.Ico x0 (min x1 image.width)
  let sum := ∑ y in ys, ∑ x in xs, image.pix x y
  let count := ys.card * xs.card
  if count = 0 then 0 else sum / count

/-- `map_luma_to_char`: index `(luma * (len-1)) / 255` into the charset
(`saturating_sub` is `Nat` subtraction).  The Rust indexing `charset[idx]`
panics out of bounds; the theorem for C2 shows the index is in bounds for
byte lumas and non-empty charsets, so the `getD` default is never taken. -/
def map_luma_to_char (luma : Nat) (charset : List Char) : Char :=
  let last := charset.length - 1
  let idx := (luma * last) / 255
  charset.getD idx '?'

/-- A bitmap font: `font8x8::BASIC_FONTS.get`, a partial map from a
character to its glyph, the glyph being the row index ↦ row-bitmask map
(rows 0–7 are meaningful). -/
def Font : Type := Char → Option (Nat → Nat)

/-- `BASIC_FONTS.get(ch).unwrap_or(fallback)` where
`fallback = BASIC_FONTS.get('?').unwrap_or([0; 8])`. -/
def glyphFor (font : Font) (ch : Char) : Nat → Nat :=
  let fallback := (font '?').getD (fun _ => 0)
  (font ch).getD fallback

/-- `(row_bits >> gx) & 1 == 1`: is the glyph bit at column `gx` of row
`gy` set? -/
def bitOn (glyph : Nat → Nat) (gx gy : Nat) : Bool :=
  ((glyph gy >>> gx) &&& 1) == 1

/-- Inner pixel loop shared by both glyph renderers: write
`f gx` at `(x + gx, ypix)` for `gx = 0, …, cols-1`. -/
def writeRow (canvas : GrayImage) (x ypix : Nat) (f : Nat → Nat) (cols : Nat) : GrayImage :=
  (List.range cols).foldl (fun c gx => c.putPixel (x + gx) ypix (f gx)) canvas

/-- Nested `for gy { for gx { put_pixel(x+gx, y+gy, f gx gy) } }` loop of
the glyph renderers. -/
def writeRows (canvas : GrayImage) (x y : Nat) (f : Nat → Nat → Nat)
    (rows cols : Nat) : GrayImage :=
  (List.range rows).foldl
    (fun c gy => writeRow c x (y + gy) (fun gx => f gx gy) cols) canvas

/-- `draw_glyph_bw`: paint the 8×8 glyph block at `(x, y)`; a set bit is
painted 0 (black), a clear bit 255 (white). -/
def draw_glyph_bw (font : Font) (canvas : GrayImage) (x y : Nat) (ch : Char) : GrayImage :=
  let glyph := glyphFor font ch
  writeRows canvas x y (fun gx gy => if bitOn glyph gx gy then 0 else 255) 8 8

/-- `draw_glyph_gray`: compute the foreground shade from the enhanced
brightness (`num_shades == 2` is a pure threshold at 128; otherwise
quantize by rounding into `num_shades` steps), then paint the 8×8 block:
a set bit gets the computed value, a clear bit 255. -/
def draw_glyph_gray (font : Font) (canvas : GrayImage) (x y : Nat) (ch : Char)
    (brightness : Nat) (num_shades : Nat) : GrayImage :=
  let glyph := glyphFor font ch
  let shade_step : ℚ := 255 / ((num_shades : ℚ) - 1)
  let shade_index : ℤ := min (max (round ((brightness : ℚ) / shade_step)) 0) ((num_shades : ℤ) - 1)
  let pixel_value : Nat :=
    if num_shades = 2 then
      if brightness < 128 then 0 else 255
    else
      min (round ((shade_index : ℚ) * 255 / ((num_shades : ℚ) - 1))).toNat 255
  writeRows canvas x y (fun gx gy => if bitOn glyph gx gy then pixel_value else 255) 8 8

/-- `convert_frame_to_ascii`: tile the source into 8×8 blocks (partial
edge blocks dropped), start from an all-white output of size
`(columns*8, rows*8)`, and for each block sample → enhance → select a
glyph → render it (graded when `shades > 1`, else black/white). -/
def convert_frame_to_ascii (font : Font) (source : GrayImage)
    (options : AsciiOptions) : GrayImage :=
  let char_width := 8
  let char_height := 8
  let columns := source.width / char_width
  let rows := source.height / char_height
  let out_width := columns * char_width
  let out_height := rows * char_height
  let init := GrayImage.fromPixel out_width out_height 255
  (List.range rows).foldl
    (fun output row =>
      let y0 := row * char_height
      let y1 := y0 + char_height
      (List.range columns).foldl
        (fun output col =>
          let x0 := col * char_width
          let x1 := x0 + char_width
          let luma := average_luma source x0 x1 y0 y1
          let enhanced := enhance_contrast luma
          let ch := map_luma_to_char enhanced options.charset
          if options.shades > 1 then
            draw_glyph_gray font output x0 y0 ch enhanced options.shades
          else
            draw_glyph_bw font output x0 y0 ch)
        output)
    init

/-- `detect_background_color`'s histogram: the count of in-bounds pixels
whose value is `c` (the Rust loop increments `histogram[pixel]`). -/
def histogram (image : GrayImage) (c : Nat) : Nat :=
  ((Finset.range image.width ×ˢ Finset.range image.height).filter
    (fun p => image.pix p.1 p.2 = c)).card

/-- The left-to-right scan over the first `n` histogram buckets,
carrying `(max_count, bg_color)` and updating on a strictly greater
count; the Rust initial state is `(0, 255)`. -/
def scanHist (hist : Nat → Nat) (n : Nat) : Nat × Nat :=
  (List.range n).foldl
    (fun st color => if hist color > st.1 then (hist color, color) else st)
    (0, 255)

/-- `detect_background_color`: scan all 256 buckets and return the
carried background color. -/
def detect_background_color (image : GrayImage) : Nat :=
  (scanHist (histogram image) 256).2

/-- `convert_to_transparent`: same dimensions; a pixel whose absolute
distance to `bg_color` (computed in `i16`, then `unsigned_abs() as u8`,
hence the `% 256`) is at most `threshold` becomes transparent white,
any other pixel opaque grayscale. -/
def convert_to_transparent (source : GrayImage) (bg_color threshold : Nat) : RgbaImage :=
  { width := source.width
    height := source.height
    pix := fun x y =>
      let luma := source.pix x y
      let is_background := ((luma : Int) - (bg_color : Int)).natAbs % 256 ≤ threshold
      if is_background then
        { r := 255, g := 255, b := 255, a := 0 }
      else
        { r := luma, g := luma, b := luma, a := 255 } }

/-- The sample rectangle intersected with the image bounds, stated the
way the specification words it. -/
def sampleRegion (image : GrayImage) (x0 x1 y0 y1 : Nat) : Finset (Nat × Nat) :=
  (Finset.Ico x0 x1 ×ˢ Finset.Ico y0 y1).filter
    (fun p => p.1 < image.width ∧ p.2 < image.height)

/-- An always-missing font table: every character falls back to the
blank glyph. -/
def fontBlank : Font := fun _ => none

/-- A 64×32 all-mid-gray source frame. -/
def srcGray : GrayImage := GrayImage.fromPixel 64 32 120

/-- Options with a two-character charset and one shade. -/
def optsBW : AsciiOptions := AsciiOptions.new 16 "# " 1

/-- The 4×1 frame of the matting example: pixels 219, 220, 255, 100. -/
def srcMatte : GrayImage :=
  { width := 4, height := 1,
    pix := fun x _ => if x = 0 then 219 else if x = 1 then 220 else if x = 2 then 255 else 100 }

/-- A single-pixel black frame. -/
def img1 : GrayImage := GrayImage.fromPixel 1 1 0

/-- A frame with zero pixels (width 0). -/
def img0 : GrayImage := GrayImage.fromPixel 0 5 7

theorem enhance_contrast_closed (b : Nat) (hb : b ≤ 255) :
    enhance_contrast b = min 255 ((6 * b - 255) / 4) := by
  show (⌊(max 0 (min (((b : ℚ) / 255 - 1/2) * (3/2) + 1/2) 1)) * 255⌋).toNat
      = min 255 ((6 * b - 255) / 4)
  have key : (((b : ℚ) / 255 - 1/2) * (3/2) + 1/2) * 255 = ((6 * (b : ℤ) - 255 : ℤ) : ℚ) / 4 := by
    push_cast
    field_simp
    ring
  have h255 : (0 : ℚ) ≤ 255 := by norm_num
  have hdist : max 0 (min (((b : ℚ) / 255 - 1/2) * (3/2) + 1/2) 1) * 255
      = max 0 (min (((6 * (b : ℤ) - 255 : ℤ) : ℚ) / 4) 255) := by
    rw [max_mul_of_nonneg _ _ h255, min_mul_of_nonneg _ _ h255, zero_mul, one_mul, key]
  rw [hdist]
  set m : ℤ := 6 * (b : ℤ) - 255 with hm
  rcases lt_or_le m 0 with hneg | hpos
  · have h1 : ((m : ℚ) / 4) < 0 := by
      apply div_neg_of_neg_of_pos
      · exact_mod_cast hneg
      · norm_num
    have h2 : min ((m : ℚ) / 4) 255 = (m : ℚ) / 4 := min_eq_left (by linarith)
    have h3 : max 0 ((m : ℚ) / 4) = 0 := max_eq_left h1.le
    rw [h2, h3]
    have hn : 6 * b - 255 = 0 := by omega
    simp [hn]
  · have hn : (m : ℤ) = ((6 * b - 255 : Nat) : ℤ) := by omega
    rcases le_or_lt m 1020 with hle | hgt
    · have h1 : ((m : ℚ) / 4) ≤ 255 := by
        rw [div_le_iff₀ (by norm_num : (0:ℚ) < 4)]
        exact_mod_cast hle
      have h2 : min ((m : ℚ) / 4) 255 = (m : ℚ) / 4 := min_eq_left h1
      have h3 : max 0 ((m : ℚ) / 4) = (m : ℚ) / 4 := max_eq_right (by positivity)
      rw [h2, h3]
      rw [show ((m : ℚ) / 4) = ((m : ℤ) : ℚ) / ((4 : ℕ) : ℚ) by norm_num]
      rw [Rat.floor_intCast_div_natCast]
      omega
    · have h1 : (255 : ℚ) ≤ (m : ℚ) / 4 := by
        rw [le_div_iff₀ (by norm_num : (0:ℚ) < 4)]
        exact_mod_cast (by linarith : (1020 : ℤ) ≤ m)
      have h2 : min ((m : ℚ) / 4) 255 = 255 := min_eq_right h1
      rw [h2]
      have h3 : max (0:ℚ) 255 = 255 := by norm_num
      rw [h3]
      have hge : 255 ≤ (6 * b - 255) / 4 := by omega
      rw [min_eq_left hge]
      rw [show ((255:ℚ)) = (((255:ℤ)):ℚ) by norm_num, Int.floor_intCast]
      rfl

theorem putPixel_pix (c : GrayImage) (x y v a b : Nat) :
    (c.putPixel x y v).pix a b = if a = x ∧ b = y then v else c.pix a b := rfl

theorem writeRow_pix (c : GrayImage) (x ypix : Nat) (f : Nat → Nat) (n : Nat) (a b : Nat) :
    (writeRow c x ypix f n).pix a b
      = if b = ypix ∧ x ≤ a ∧ a < x + n then f (a - x) else c.pix a b := by
  induction n with
  | zero =>
    rw [show writeRow c x ypix f 0 = c from rfl, if_neg (by omega)]
  | succ k ih =>
    have hstep : writeRow c x ypix f (k+1)
        = (writeRow c x ypix f k).putPixel (x + k) ypix (f k) := by
      unfold writeRow
      rw [List.range_succ, List.foldl_append, List.foldl_cons, List.foldl_nil]
    rw [hstep, putPixel_pix]
    by_cases hab : a = x + k ∧ b = ypix
    · obtain ⟨ha, hb2⟩ := hab
      subst ha; subst hb2
      simp [Nat.add_sub_cancel_left]
    · rw [if_neg hab, ih]
      split_ifs with h1 h2
      · rfl
      · exfalso; omega
      · exfalso; omega
      · rfl

theorem writeRow_width (c : GrayImage) (x ypix : Nat) (f : Nat → Nat) (n : Nat) :
    (writeRow c x ypix f n).width = c.width := by
  induction n with
  | zero => rfl
  | succ k ih =>
    unfold writeRow at ih ⊢
    rw [List.range_succ, List.foldl_append, List.foldl_cons, List.foldl_nil]
    exact ih

theorem writeRow_height (c : GrayImage) (x ypix : Nat) (f : Nat → Nat) (n : Nat) :
    (writeRow c x ypix f n).height = c.height := by
  induction n with
  | zero => rfl
  | succ k ih =>
    unfold writeRow at ih ⊢
    rw [List.range_succ, List.foldl_append, List.foldl_cons, List.foldl_nil]
    exact ih

theorem writeRows_pix (c : GrayImage) (x y : Nat) (f : Nat → Nat → Nat)
    (rows cols : Nat) (a b : Nat) :
    (writeRows c x y f rows cols).pix a b
      = if x ≤ a ∧ a < x + cols ∧ y ≤ b ∧ b < y + rows then f (a - x) (b - y)
        else c.pix a b := by
  induction rows generalizing c with
  | zero =>
    rw [show writeRows c x y f 0 cols = c from rfl, if_neg (by omega)]
  | succ k ih =>
    have hstep : writeRows c x y f (k+1) cols
        = writeRow (writeRows c x y f k cols) x (y + k) (fun gx => f gx k) cols := by
      unfold writeRows
      rw [List.range_succ, List.foldl_append, List.foldl_cons, List.foldl_nil]
    rw [hstep, writeRow_pix, ih]
    split_ifs <;> first
      | rfl
      | (exfalso; omega)
      | (congr 1; omega)

theorem writeRows_width (c : GrayImage) (x y : Nat) (f : Nat → Nat → Nat)
    (rows cols : Nat) :
    (writeRows c x y f rows cols).width = c.width := by
  induction rows generalizing c with
  | zero => rfl
  | succ k ih =>
    unfold writeRows
    rw [List.range_succ, List.foldl_append, List.foldl_cons, List.foldl_nil]
    rw [writeRow_width]
    exact ih c

theorem writeRows_height (c : GrayImage) (x y : Nat) (f : Nat → Nat → Nat)
    (rows cols : Nat) :
    (writeRows c x y f rows cols).height = c.height := by
  induction rows generalizing c with
  | zero => rfl
  | succ k ih =>
    unfold writeRows
    rw [List.range_succ, List.foldl_append, List.foldl_cons, List.foldl_nil]
    rw [writeRow_height]
    exact ih c

theorem draw_glyph_bw_pix (font : Font) (c : GrayImage) (x y : Nat) (ch : Char) (a b : Nat) :
    (draw_glyph_bw font c x y ch).pix a b
      = if x ≤ a ∧ a < x + 8 ∧ y ≤ b ∧ b < y + 8 then
          (if bitOn (glyphFor font ch) (a - x) (b - y) then 0 else 255)
        else c.pix a b := by
  simp only [draw_glyph_bw]
  rw [writeRows_pix]

theorem draw_glyph_bw_width (font : Font) (c : GrayImage) (x y : Nat) (ch : Char) :
    (draw_glyph_bw font c x y ch).width = c.width := by
  simp only [draw_glyph_bw]
  rw [writeRows_width]

theorem draw_glyph_bw_height (font : Font) (c : GrayImage) (x y : Nat) (ch : Char) :
    (draw_glyph_bw font c x y ch).height = c.height := by
  simp only [draw_glyph_bw]
  rw [writeRows_height]

theorem draw_glyph_gray_width (font : Font) (c : GrayImage) (x y : Nat) (ch : Char)
    (brightness num_shades : Nat) :
    (draw_glyph_gray font c x y ch brightness num_shades).width = c.width := by
  simp only [draw_glyph_gray]
  rw [writeRows_width]

theorem draw_glyph_gray_height (font : Font) (c : GrayImage) (x y : Nat) (ch : Char)
    (brightness num_shades : Nat) :
    (draw_glyph_gray font c x y ch brightness num_shades).height = c.height := by
  simp only [draw_glyph_gray]
  rw [writeRows_height]

/-- C7: with shade count exactly 2 the graded Glyph Renderer is a pure
threshold at 128 — inside the 8×8 block a foreground (bit=1) pixel is
painted 0 when the enhanced brightness is below 128 and 255 otherwise,
and a background (bit=0) pixel is painted white (255); pixels outside
the block are untouched. -/
theorem draw_glyph_gray_two_pix (font : Font) (c : GrayImage) (x y : Nat) (ch : Char)
    (brightness : Nat) (a b : Nat) :
    (draw_glyph_gray font c x y ch brightness 2).pix a b
      = if x ≤ a ∧ a < x + 8 ∧ y ≤ b ∧ b < y + 8 then
          (if bitOn (glyphFor font ch) (a - x) (b - y) then
            (if brightness < 128 then 0 else 255)
          else 255)
        else c.pix a b := by
  simp only [draw_glyph_gray]
  rw [writeRows_pix]
  norm_num

theorem foldl_width {α : Type} (g : GrayImage → α → GrayImage)
    (hg : ∀ c e, (g c e).width = c.width) :
    ∀ (l : List α) (c : GrayImage), (l.foldl g c).width = c.width := by
  intro l
  induction l with
  | nil => intro c; rfl
  | cons e t ih =>
    intro c
    rw [List.foldl_cons, ih (g c e), hg c e]

theorem foldl_height {α : Type} (g : GrayImage → α → GrayImage)
    (hg : ∀ c e, (g c e).height = c.height) :
    ∀ (l : List α) (c : GrayImage), (l.foldl g c).height = c.height := by
  intro l
  induction l with
  | nil => intro c; rfl
  | cons e t ih =>
    intro c
    rw [List.foldl_cons, ih (g c e), hg c e]

theorem foldl_pix_inv {α : Type} (P : Nat → Prop) (g : GrayImage → α → GrayImage)
    (hg : ∀ c e, (∀ u v, P (c.pix u v)) → ∀ u v, P ((g c e).pix u v)) :
    ∀ (l : List α) (c : GrayImage), (∀ u v, P (c.pix u v)) → ∀ u v, P ((l.foldl g c).pix u v) := by
  intro l
  induction l with
  | nil => intro c hc; exact hc
  | cons e t ih =>
    intro c hc
    rw [List.foldl_cons]
    exact ih (g c e) (hg c e hc)

/-- C1: the Frame Transformer's output dimensions are exactly
`(8 * (width / 8), 8 * (height / 8))`; when a source dimension is a
multiple of 8 it is preserved unchanged. -/
theorem convert_frame_to_ascii_dims (font : Font) (source : GrayImage)
    (options : AsciiOptions) :
    (convert_frame_to_ascii font source options).width = 8 * (source.width / 8)
    ∧ (convert_frame_to_ascii font source options).height = 8 * (source.height / 8)
    ∧ (8 ∣ source.width → (convert_frame_to_ascii font source options).width = source.width)
    ∧ (8 ∣ source.height → (convert_frame_to_ascii font source options).height = source.height) := by
  have hw : (convert_frame_to_ascii font source options).width = source.width / 8 * 8 := by
    simp only [convert_frame_to_ascii]
    rw [foldl_width]
    · rfl
    · intro c row
      rw [foldl_width]
      intro c2 col
      split_ifs
      · rw [draw_glyph_gray_width]
      · rw [draw_glyph_bw_width]
  have hh : (convert_frame_to_ascii font source options).height = source.height / 8 * 8 := by
    simp only [convert_frame_to_ascii]
    rw [foldl_height]
    · rfl
    · intro c row
      rw [foldl_height]
      intro c2 col
      split_ifs
      · rw [draw_glyph_gray_height]
      · rw [draw_glyph_bw_height]
  refine ⟨by omega, by omega, fun hd => ?_, fun hd => ?_⟩
  · obtain ⟨k, hk⟩ := hd
    omega
  · obtain ⟨k, hk⟩ := hd
    omega

/-- C3: with shade count 1 the Frame Transformer renders pure
black/white — every pixel of the output image is exactly 0 or 255. -/
theorem convert_frame_to_ascii_shades_one_bw (font : Font) (source : GrayImage)
    (options : AsciiOptions) (hsh : options.shades = 1) :
    ∀ a b, (convert_frame_to_ascii font source options).pix a b = 0
      ∨ (convert_frame_to_ascii font source options).pix a b = 255 := by
  intro a b
  simp only [convert_frame_to_ascii]
  apply foldl_pix_inv (fun v => v = 0 ∨ v = 255)
  · intro c row hc
    apply foldl_pix_inv (fun v => v = 0 ∨ v = 255)
    · intro c2 col hc2 u v
      rw [if_neg (by omega : ¬ options.shades > 1)]
      rw [draw_glyph_bw_pix]
      split_ifs
      · left; rfl
      · right; rfl
      · exact hc2 u v
    · exact hc
  · intro u v
    right
    rfl

theorem scanHist_succ (h : Nat → Nat) (n : Nat) :
    scanHist h (n+1)
      = if h n > (scanHist h n).1 then (h n, n) else scanHist h n := by
  unfold scanHist
  rw [List.range_succ, List.foldl_append, List.foldl_cons, List.foldl_nil]

theorem scanHist_invariant (h : Nat → Nat) (n : Nat) :
    ((scanHist h n).1 = 0 ∧ (scanHist h n).2 = 255 ∧ ∀ c, c < n → h c = 0)
    ∨ (0 < (scanHist h n).1 ∧ (scanHist h n).2 < n
       ∧ h (scanHist h n).2 = (scanHist h n).1
       ∧ (∀ c, c < n → h c ≤ (scanHist h n).1)
       ∧ (∀ c, c < (scanHist h n).2 → h c < (scanHist h n).1)) := by
  induction n with
  | zero =>
    left
    exact ⟨rfl, rfl, by omega⟩
  | succ k ih =>
    rw [scanHist_succ]
    by_cases hup : h k > (scanHist h k).1
    · rw [if_pos hup]
      right
      rcases ih with ⟨h0, hbg, hz⟩ | ⟨hpos, hlt, heq, hub, hfirst⟩
      · refine ⟨by omega, by omega, rfl, ?_, ?_⟩
        · intro c hc
          rcases Nat.lt_succ_iff_lt_or_eq.mp hc with h' | h'
          · have := hz c h'
            omega
          · subst h'
            exact Nat.le_refl _
        · intro c hc
          have := hz c hc
          omega
      · refine ⟨by omega, by omega, rfl, ?_, ?_⟩
        · intro c hc
          rcases Nat.lt_succ_iff_lt_or_eq.mp hc with h' | h'
          · have := hub c h'
            omega
          · subst h'
            exact Nat.le_refl _
        · intro c hc
          have := hub c hc
          omega
    · rw [if_neg hup]
      rcases ih with ⟨h0, hbg, hz⟩ | ⟨hpos, hlt, heq, hub, hfirst⟩
      · left
        refine ⟨h0, hbg, ?_⟩
        intro c hc
        rcases Nat.lt_succ_iff_lt_or_eq.mp hc with h' | h'
        · exact hz c h'
        · subst h'
          omega
      · right
        refine ⟨hpos, by omega, heq, ?_, hfirst⟩
        intro c hc
        rcases Nat.lt_succ_iff_lt_or_eq.mp hc with h' | h'
        · exact hub c h'
        · subst h'
          omega

/-- C5: on a non-empty byte image the Background Detector returns a
brightness value of maximal histogram count, and every strictly smaller
brightness value has a strictly smaller count (first-seen-max wins). -/
theorem detect_background_color_spec (image : GrayImage)
    (hw : 0 < image.width) (hh : 0 < image.height)
    (hpix : ∀ a b, a < image.width → b < image.height → image.pix a b ≤ 255) :
    detect_background_color image ≤ 255
    ∧ (∀ c, c ≤ 255 → histogram image c ≤ histogram image (detect_background_color image))
    ∧ (∀ c, c < detect_background_color image
        → histogram image c < histogram image (detect_background_color image)) := by
  have hmem : 0 < histogram image (image.pix 0 0) := by
    unfold histogram
    rw [Finset.card_pos]
    refine ⟨(0, 0), ?_⟩
    simp [Finset.mem_filter, Finset.mem_product, hw, hh]
  have hb255 : image.pix 0 0 ≤ 255 := hpix 0 0 hw hh
  rcases scanHist_invariant (histogram image) 256 with ⟨h0, hbg, hz⟩ | ⟨hpos, hlt2, heq, hub, hfirst⟩
  · exfalso
    have := hz (image.pix 0 0) (by omega)
    omega
  · unfold detect_background_color
    refine ⟨by omega, ?_, ?_⟩
    · intro c hc
      rw [heq]
      exact hub c (by omega)
    · intro c hc
      rw [heq]
      exact hfirst c hc

/-- C10: on an image with zero pixels every histogram bucket is 0, no
bucket ever beats the initial maximum, and the initial background value
255 is returned. -/
theorem detect_background_color_empty (image : GrayImage)
    (hdeg : image.width = 0 ∨ image.height = 0) :
    detect_background_color image = 255 := by
  have hz : ∀ c, histogram image c = 0 := by
    intro c
    unfold histogram
    rw [Finset.card_eq_zero]
    ext p
    simp only [Finset.mem_filter, Finset.mem_product, Finset.mem_range, Finset.not_mem_empty,
      iff_false, not_and]
    intro h1 h2
    omega
  rcases scanHist_invariant (histogram image) 256 with ⟨h0, hbg, _⟩ | ⟨hpos, _, heq, _, _⟩
  · exact hbg
  · exfalso
    rw [hz] at heq
    omega

/-- C2: the Glyph Selector indexes the charset at
`(luma * (len-1)) / 255`, the index is in bounds for byte lumas and
non-empty charsets, brightness 0 selects the first entry, brightness 255
the last, and a singleton charset is constant. -/
theorem map_luma_to_char_spec (luma : Nat) (charset : List Char)
    (hne : charset ≠ []) (hl : luma ≤ 255) :
    (luma * (charset.length - 1)) / 255 < charset.length
    ∧ map_luma_to_char luma charset
        = charset.getD ((luma * (charset.length - 1)) / 255) '?'
    ∧ map_luma_to_char 0 charset = charset.getD 0 '?'
    ∧ map_luma_to_char 255 charset = charset.getLast hne
    ∧ (charset.length = 1 → map_luma_to_char luma charset = charset.getD 0 '?') := by
  have hlen : 1 ≤ charset.length := List.length_pos.mpr hne
  have hidx : ∀ u : Nat, u ≤ 255 → (u * (charset.length - 1)) / 255 < charset.length := by
    intro u hu
    have h1 : u * (charset.length - 1) ≤ 255 * (charset.length - 1) :=
      Nat.mul_le_mul_right _ hu
    have h2 : (u * (charset.length - 1)) / 255 ≤ (255 * (charset.length - 1)) / 255 :=
      Nat.div_le_div_right h1
    have h3 : (255 * (charset.length - 1)) / 255 = charset.length - 1 :=
      Nat.mul_div_cancel_left _ (by norm_num)
    omega
  refine ⟨hidx luma hl, rfl, ?_, ?_, ?_⟩
  · simp [map_luma_to_char]
  · have h3 : (255 * (charset.length - 1)) / 255 = charset.length - 1 :=
      Nat.mul_div_cancel_left _ (by norm_num)
    simp only [map_luma_to_char, h3]
    rw [List.getD_eq_getElem _ _ (by omega), List.getLast_eq_getElem]
  · intro h1
    simp [map_luma_to_char, h1]

/-- C4: the Alpha Compositor keeps the dimensions, makes a pixel within
`threshold` of the background transparent white and every other pixel
opaque grayscale; with tolerance 0 exactly the background value is
matched. -/
theorem convert_to_transparent_spec (source : GrayImage) (bg_color threshold : Nat)
    (hbg : bg_color ≤ 255) (hpix : ∀ a b, source.pix a b ≤ 255) :
    (convert_to_transparent source bg_color threshold).width = source.width
    ∧ (convert_to_transparent source bg_color threshold).height = source.height
    ∧ (∀ a b,
        (convert_to_transparent source bg_color threshold).pix a b
          = if ((source.pix a b : Int) - (bg_color : Int)).natAbs ≤ threshold then
              { r := 255, g := 255, b := 255, a := 0 }
            else
              { r := source.pix a b, g := source.pix a b, b := source.pix a b, a := 255 })
    ∧ (threshold = 0 → ∀ a b,
        (((convert_to_transparent source bg_color threshold).pix a b).a = 0
          ↔ source.pix a b = bg_color)) := by
  have habs : ∀ a b, ((source.pix a b : Int) - (bg_color : Int)).natAbs % 256
      = ((source.pix a b : Int) - (bg_color : Int)).natAbs := by
    intro a b
    have := hpix a b
    have h1 : ((source.pix a b : Int) - (bg_color : Int)).natAbs ≤ 255 := by omega
    omega
  have hchar : ∀ a b,
      (convert_to_transparent source bg_color threshold).pix a b
        = if ((source.pix a b : Int) - (bg_color : Int)).natAbs ≤ threshold then
            { r := 255, g := 255, b := 255, a := 0 }
          else
            { r := source.pix a b, g := source.pix a b, b := source.pix a b, a := 255 } := by
    intro a b
    simp only [convert_to_transparent]
    rw [habs]
  refine ⟨rfl, rfl, hchar, ?_⟩
  intro h0 a b
  rw [hchar a b]
  subst h0
  split_ifs with hcond
  · constructor
    · intro _
      omega
    · intro _
      rfl
  · constructor
    · intro hfalse
      exact absurd hfalse (by decide)
    · intro heqv
      exact absurd (by omega : ((source.pix a b : Int) - (bg_color : Int)).natAbs ≤ 0) hcond

/-- C6: the Luma Sampler returns the truncating integer mean over the
rectangle clipped to the image bounds, and 0 when the clipped rectangle
is empty. -/
theorem average_luma_spec (image : GrayImage) (x0 x1 y0 y1 : Nat) :
    average_luma image x0 x1 y0 y1
      = if (sampleRegion image x0 x1 y0 y1).card = 0 then 0
        else (∑ p in sampleRegion image x0 x1 y0 y1, image.pix p.1 p.2)
          / (sampleRegion image x0 x1 y0 y1).card := by
  have hreg : sampleRegion image x0 x1 y0 y1
      = Finset.Ico x0 (min x1 image.width) ×ˢ Finset.Ico y0 (min y1 image.height) := by
    ext p
    simp only [sampleRegion, Finset.mem_filter, Finset.mem_product, Finset.mem_Ico]
    omega
  simp only [average_luma]
  rw [hreg, Finset.card_product, Finset.sum_product, Finset.sum_comm, Nat.mul_comm]

/-- C8: constructed options always have at least one column, a shade
count in `[1, 256]` and a non-empty charset; an empty charset string is
replaced by the default gradient, a non-empty one kept as given. -/
theorem ascii_options_new_spec (columns : Nat) (charset : String) (shades : Nat) :
    1 ≤ (AsciiOptions.new columns charset shades).columns
    ∧ 1 ≤ (AsciiOptions.new columns charset shades).shades
    ∧ (AsciiOptions.new columns charset shades).shades ≤ 256
    ∧ 1 ≤ (AsciiOptions.new columns charset shades).charset.length
    ∧ (charset.toList = [] →
        (AsciiOptions.new columns charset shades).charset = "@#*+=-:. ".toList)
    ∧ (charset.toList ≠ [] →
        (AsciiOptions.new columns charset shades).charset = charset.toList) := by
  simp only [AsciiOptions.new]
  refine ⟨Nat.le_max_right _ _, le_min (Nat.le_max_right _ _) (by norm_num),
    Nat.min_le_right _ _, ?_, ?_, ?_⟩
  · split_ifs with h
    · decide
    · have : charset.toList ≠ [] := by
        intro hc
        rw [hc] at h
        exact h rfl
      exact List.length_pos.mpr this
  · intro h
    rw [if_pos (by rw [List.isEmpty_iff]; exact h)]
  · intro h
    rw [if_neg (fun hc => h (List.isEmpty_iff.mp (by exact_mod_cast hc)))]

/-- C9: the Contrast Enhancer is the fixed stretch
`clamp01((b/255 - 1/2) * 3/2 + 1/2) * 255` truncated, whose value on
bytes is `min 255 ((6*b - 255)/4)`; brightness 0 maps to 0 and 255 to
255. -/
theorem enhance_contrast_spec (b : Nat) (hb : b ≤ 255) :
    enhance_contrast b = min 255 ((6 * b - 255) / 4)
    ∧ enhance_contrast 0 = 0
    ∧ enhance_contrast 255 = 255 := by
  refine ⟨enhance_contrast_closed b hb, ?_, ?_⟩
  · have h := enhance_contrast_closed 0 (by norm_num)
    simpa using h
  · have h := enhance_contrast_closed 255 (by norm_num)
    simpa using h

theorem enhance_contrast_spec_witness :
    enhance_contrast 100 = min 255 ((6 * 100 - 255) / 4)
    ∧ enhance_contrast 0 = 0
    ∧ enhance_contrast 255 = 255 :=
  enhance_contrast_spec 100 (by norm_num)

theorem convert_frame_to_ascii_dims_witness :
    (convert_frame_to_ascii fontBlank srcGray optsBW).width = 64
    ∧ (convert_frame_to_ascii fontBlank srcGray optsBW).height = 32 :=
  ⟨(convert_frame_to_ascii_dims fontBlank srcGray optsBW).2.2.1 (by decide),
   (convert_frame_to_ascii_dims fontBlank srcGray optsBW).2.2.2 (by decide)⟩

theorem map_luma_to_char_spec_witness :
    map_luma_to_char 0 ['#', ' '] = '#' ∧ map_luma_to_char 255 ['#', ' '] = ' ' := by
  constructor
  · have h := map_luma_to_char_spec 0 ['#', ' '] (by decide) (by decide)
    simpa using h.2.2.1
  · have h := map_luma_to_char_spec 255 ['#', ' '] (by decide) (by decide)
    simpa using h.2.2.2.1

theorem convert_frame_to_ascii_shades_one_bw_witness :
    (convert_frame_to_ascii fontBlank srcGray optsBW).pix 0 0 = 0
    ∨ (convert_frame_to_ascii fontBlank srcGray optsBW).pix 0 0 = 255 :=
  convert_frame_to_ascii_shades_one_bw fontBlank srcGray optsBW (by decide) 0 0

theorem convert_to_transparent_spec_witness :
    ((convert_to_transparent srcMatte 240 20).pix 1 0).a = 0
    ∧ ((convert_to_transparent srcMatte 240 20).pix 0 0).a = 255
    ∧ ((convert_to_transparent srcMatte 240 20).pix 2 0).a = 0 := by
  have h := (convert_to_transparent_spec srcMatte 240 20 (by decide)
    (fun a b => by
      show (if a = 0 then 219 else if a = 1 then 220 else if a = 2 then 255 else 100) ≤ 255
      split_ifs <;> decide)).2.2.1
  refine ⟨?_, ?_, ?_⟩
  · rw [h 1 0]
    decide
  · rw [h 0 0]
    decide
  · rw [h 2 0]
    decide

theorem detect_background_color_spec_witness :
    detect_background_color img1 ≤ 255
    ∧ (∀ c, c ≤ 255 → histogram img1 c ≤ histogram img1 (detect_background_color img1))
    ∧ (∀ c, c < detect_background_color img1
        → histogram img1 c < histogram img1 (detect_background_color img1)) :=
  detect_background_color_spec img1 (by decide) (by decide) (fun _ _ _ _ => Nat.zero_le 255)

theorem detect_background_color_empty_witness :
    detect_background_color img0 = 255 :=
  detect_background_color_empty img0 (Or.inl rfl)

theorem ascii_options_new_spec_witness :
    1 ≤ (AsciiOptions.new 0 "" 0).columns
    ∧ 1 ≤ (AsciiOptions.new 0 "" 0).shades
    ∧ (AsciiOptions.new 0 "" 0).shades ≤ 256
    ∧ 1 ≤ (AsciiOptions.new 0 "" 0).charset.length
    ∧ ("".toList = [] → (AsciiOptions.new 0 "" 0).charset = "@#*+=-:. ".toList)
    ∧ ("".toList ≠ [] → (AsciiOptions.new 0 "" 0).charset = "".toList) :=
  ascii_options_new_spec 0 "" 0

end VideoAscii
